import Mathlib

/-!
Verification development for the crypto-trading-automation repository.

The development shallowly embeds, in Lean 4:
  * the OKX exchange client (src/lib/okx.ts): request dispatch, order
    validation and order placement;
  * the algorithmic trigger-order placement (src/lib/algo-trading.ts);
  * the market-sell endpoint loop (src/app/api/market-sell/route.ts);
  * the Fill Ingestion and Liquidation Scheduler engine.  The engine's
    implementation (fetch_filled_orders.py / auto_sell_orders.py) is not part
    of the sources available here, so those definitions are modelled from the
    specification text (each such definition says so in its doc comment).

JavaScript machine numbers are idealized as exact rationals (`Rat`); every
theorem that depends on this idealization is evaluated at inputs on which the
binary floating-point computation and the exact computation agree, or the
idealization only strengthens the refuted claim.
-/

namespace Spec2Proof

/-- Numeric value of a list of decimal digit characters, most significant
first. -/
def digitsVal (cs : List Char) : Nat :=
  cs.foldl (fun acc c => 10 * acc + (c.toNat - 48)) 0

/-- Value of a digit list read as the fractional part after a decimal point. -/
def fracVal (cs : List Char) : Rat :=
  (digitsVal cs : Rat) / ((10 : Rat) ^ cs.length)

/-- Model of JavaScript `parseFloat` on plain decimal notation: an optional
sign, then digits with an optional fractional part; the longest valid prefix
is parsed and trailing characters are ignored, and `none` models `NaN` (no
parsable prefix).  Exponent notation and `Infinity` are not modelled; no
theorem in this file evaluates `parseFloat` on such inputs. -/
def parseFloat? (s : String) : Option Rat :=
  let cs := s.toList
  let signAndRest : Rat × List Char :=
    match cs with
    | '-' :: t => (-1, t)
    | '+' :: t => (1, t)
    | _ => (1, cs)
  let intDigits := signAndRest.2.takeWhile Char.isDigit
  let rest := signAndRest.2.dropWhile Char.isDigit
  let fracDigits :=
    match rest with
    | '.' :: t => t.takeWhile Char.isDigit
    | _ => []
  if intDigits.isEmpty && fracDigits.isEmpty then none
  else some (signAndRest.1 * ((digitsVal intDigits : Rat) + fracVal fracDigits))

/-- Order parameters accepted by `OKXClient.placeOrder` (src/lib/okx.ts,
interface `OKXOrderParams`).  A field absent at runtime is modelled by the
empty string, matching the JavaScript falsy test `!params.field`; `px` is
optional in the interface and is an `Option`. -/
structure OKXOrderParams where
  instId : String
  tdMode : String
  side : String
  ordType : String
  sz : String
  px : Option String
  deriving DecidableEq, Repr

/-- One element of the `data` array of an OKX trade response
(src/lib/okx.ts, interface `OKXOrderResponse`). -/
structure OrderAck where
  clOrdId : String
  ordId : String
  sCode : String
  deriving DecidableEq, Repr

/-- Body of an OKX API response (src/lib/okx.ts, `OKXOrderResponse` shape:
`code`, `msg`, `data`). -/
structure OKXResponse where
  code : String
  msg : String
  data : List OrderAck
  deriving DecidableEq, Repr

/-- Outcome of the HTTP transport underneath `OKXClient.makeRequest`: either
a decoded response body, or one of the axios failure modes distinguished in
src/lib/okx.ts lines 140-151. -/
inductive TransportOutcome where
  | success (resp : OKXResponse)
  | timeout
  | httpError (status : Nat) (statusText : String)
  | networkError
  deriving DecidableEq, Repr

/-- Embeds `OKXClient.makeRequest` (src/lib/okx.ts lines 101-156): a decoded
body whose `code` differs from the string `"0"` is turned into a thrown
`OKX API Error`, and every transport failure is turned into a thrown error;
only a body with `code = "0"` is returned. -/
def makeRequest (net : TransportOutcome) : Except String OKXResponse :=
  match net with
  | .success resp =>
      if resp.code ≠ "0" then
        .error ("OKX API Error: " ++ resp.code ++ " - " ++ resp.msg)
      else
        .ok resp
  | .timeout => .error "Request timeout - OKX API is not responding"
  | .httpError status statusText =>
      .error ("HTTP " ++ toString status ++ ": " ++ statusText)
  | .networkError => .error "Network error - no response received from OKX API"

/-- Embeds `OKXClient.validateOrderParams` (src/lib/okx.ts lines 329-343),
with the checks in source order.  The final size check is
`parseFloat(params.sz) <= 0`; when `sz` has no parsable prefix the JavaScript
comparison `NaN <= 0` is false and the check passes, which the `Option.any`
encoding reproduces. -/
def validateOrderParams (p : OKXOrderParams) : Except String Unit :=
  if p.instId = "" then .error "instId is required"
  else if p.tdMode = "" then .error "tdMode is required"
  else if p.side = "" then .error "side is required"
  else if p.ordType = "" then .error "ordType is required"
  else if p.sz = "" then .error "sz is required"
  else if p.ordType = "limit" ∧ p.px.getD "" = "" then
    .error "Price is required for limit orders"
  else if (parseFloat? p.sz).any (fun q => decide (q ≤ 0)) then
    .error "Order size must be positive"
  else .ok ()

/-- Embeds `OKXClient.placeOrder` (src/lib/okx.ts lines 168-187): validation
runs first and a validation error is rethrown with no request issued;
otherwise exactly one request is handed to `makeRequest` (the circuit breaker
around it passes the outcome through unchanged).  The first component lists
the requests actually issued to the exchange. -/
def placeOrder (p : OKXOrderParams) (net : TransportOutcome) :
    List OKXOrderParams × Except String OKXResponse :=
  match validateOrderParams p with
  | .error e => ([], .error e)
  | .ok _ => ([p], makeRequest net)

/-- Validation success is equivalent to: all required fields present, a price
present for limit orders, and the size not parsing to a non-positive
number. -/
theorem validateOrderParams_ok_iff (p : OKXOrderParams) :
    validateOrderParams p = Except.ok () ↔
      p.instId ≠ "" ∧ p.tdMode ≠ "" ∧ p.side ≠ "" ∧ p.ordType ≠ "" ∧ p.sz ≠ "" ∧
      ¬(p.ordType = "limit" ∧ p.px.getD "" = "") ∧
      ∀ q, parseFloat? p.sz = some q → ¬(q ≤ 0) := by
  unfold validateOrderParams
  split_ifs with h1 h2 h3 h4 h5 h6 h7
  · simp [h1]
  · simp [h1, h2]
  · simp [h1, h2, h3]
  · simp [h1, h2, h3, h4]
  · simp [h1, h2, h3, h4, h5]
  · simp [h1, h2, h3, h4, h5, h6]
  · constructor
    · intro h
      cases h
    · intro h
      exfalso
      rcases hpf : parseFloat? p.sz with _ | q
      · rw [hpf] at h7
        simp [Option.any] at h7
      · rw [hpf] at h7
        simp [Option.any] at h7
        exact h.2.2.2.2.2.2 q hpf h7
  · constructor
    · intro _
      refine ⟨h1, h2, h3, h4, h5, h6, ?_⟩
      intro q hq hq0
      rw [hq] at h7
      simp [Option.any] at h7
      exact (not_le.mpr h7) hq0
    · intro _
      rfl

/-- C9: `OKXClient.placeOrder` throws before issuing any network request
whenever `sz` parses to a non-positive number, whenever a required field
(`instId`, `tdMode`, `side`, `ordType`, `sz`) is missing, or whenever
`ordType` is `limit` and `px` is absent; and every order actually submitted
to the exchange passed validation. -/
theorem placeOrder_validates_before_request (p : OKXOrderParams)
    (net : TransportOutcome) :
    (((∃ q, parseFloat? p.sz = some q ∧ q ≤ 0) ∨
        p.instId = "" ∨ p.tdMode = "" ∨ p.side = "" ∨ p.ordType = "" ∨ p.sz = "" ∨
        (p.ordType = "limit" ∧ p.px.getD "" = "")) →
      (placeOrder p net).1 = [] ∧ ∃ e, (placeOrder p net).2 = Except.error e) ∧
    ∀ q ∈ (placeOrder p net).1, validateOrderParams q = Except.ok () := by
  rcases hval : validateOrderParams p with e | u
  · constructor
    · intro _
      simp [placeOrder, hval]
    · intro q hq
      simp [placeOrder, hval] at hq
  · constructor
    · intro hbad
      exfalso
      have hok := (validateOrderParams_ok_iff p).mp (by rw [hval])
      rcases hok with ⟨h1, h2, h3, h4, h5, h6, h7⟩
      rcases hbad with ⟨q, hq, hq0⟩ | h | h | h | h | h | h
      · exact h7 q hq hq0
      · exact h1 h
      · exact h2 h
      · exact h3 h
      · exact h4 h
      · exact h5 h
      · exact h6 h
    · intro q hq
      simp [placeOrder, hval] at hq
      rw [hq, hval]

/-- Closed witness for C9: an order with size "0" (which parses to the
non-positive 0) is rejected with no request issued. -/
theorem placeOrder_validates_before_request_witness :
    (placeOrder ⟨"BTC-USDT", "cash", "sell", "market", "0", none⟩
        TransportOutcome.networkError).1 = [] ∧
    ∃ e, (placeOrder ⟨"BTC-USDT", "cash", "sell", "market", "0", none⟩
        TransportOutcome.networkError).2 = Except.error e :=
  (placeOrder_validates_before_request
      ⟨"BTC-USDT", "cash", "sell", "market", "0", none⟩
      TransportOutcome.networkError).1
    (Or.inl ⟨0, by simp [parseFloat?, digitsVal, fracVal], le_refl 0⟩)

/-- C10: a value returned rather than thrown by `OKXClient.makeRequest` always
has response code "0" (hence so does a response returned by the `placeOrder`
wrapper); a decoded response with any other code, and every transport
failure, is turned into a thrown error. -/
theorem makeRequest_ok_iff_code_zero (net : TransportOutcome)
    (p : OKXOrderParams) (r r' : OKXResponse) :
    (makeRequest net = Except.ok r → r.code = "0") ∧
    ((placeOrder p net).2 = Except.ok r' → r'.code = "0") ∧
    (∀ resp, net = TransportOutcome.success resp → resp.code ≠ "0" →
      ∃ e, makeRequest net = Except.error e) ∧
    ((net = TransportOutcome.timeout ∨ net = TransportOutcome.networkError ∨
        ∃ st stx, net = TransportOutcome.httpError st stx) →
      ∃ e, makeRequest net = Except.error e) := by
  have hmain : ∀ r0 : OKXResponse, makeRequest net = Except.ok r0 →
      r0.code = "0" := by
    intro r0 h
    cases net with
    | success resp =>
        by_cases hc : resp.code = "0"
        · simp [makeRequest, hc] at h
          rw [← h, hc]
        · simp [makeRequest, hc] at h
    | timeout => simp [makeRequest] at h
    | httpError st stx => simp [makeRequest] at h
    | networkError => simp [makeRequest] at h
  refine ⟨hmain r, ?_, ?_, ?_⟩
  · intro h
    rcases hval : validateOrderParams p with e | u
    · simp [placeOrder, hval] at h
    · simp [placeOrder, hval] at h
      exact hmain r' h
  · intro resp hnet hc
    subst hnet
    exact ⟨"OKX API Error: " ++ resp.code ++ " - " ++ resp.msg,
      by simp [makeRequest, hc]⟩
  · intro h
    rcases h with h | h | ⟨st, stx, h⟩ <;> subst h <;> exact ⟨_, rfl⟩

/-- Closed witness for C10: a decoded response with code "0" is returned, and
the theorem yields that its code is "0"; a response with code "1" produces a
thrown error. -/
theorem makeRequest_ok_iff_code_zero_witness :
    ((⟨"0", "", []⟩ : OKXResponse).code = "0") ∧
    ∃ e, makeRequest (TransportOutcome.success ⟨"1", "err", []⟩) =
      Except.error e :=
  ⟨(makeRequest_ok_iff_code_zero (TransportOutcome.success ⟨"0", "", []⟩)
      ⟨"BTC-USDT", "cash", "sell", "market", "1", none⟩
      ⟨"0", "", []⟩ ⟨"0", "", []⟩).1 (by simp [makeRequest]),
   (makeRequest_ok_iff_code_zero (TransportOutcome.success ⟨"1", "err", []⟩)
      ⟨"BTC-USDT", "cash", "sell", "market", "1", none⟩
      ⟨"1", "err", []⟩ ⟨"1", "err", []⟩).2.2.1 ⟨"1", "err", []⟩ rfl
      (by simp)⟩

/-- Modelled from the spec: the Fill status of section 3 — the implementing
scripts fetch_filled_orders.py and auto_sell_orders.py are not among the
available sources (the repository documentation describes the same states as
NULL / PROCESSING / SOLD). -/
inductive Status where
  | unprocessed
  | locked
  | completed
  deriving DecidableEq, Repr

/-- Position of a status along the lifecycle chain. -/
def statusRank : Status → Nat
  | Status.unprocessed => 0
  | Status.locked => 1
  | Status.completed => 2

/-- The lifecycle order unprocessed → locked → completed; `statusLe s s'` says
`s'` is reachable from `s` along that chain. -/
def statusLe (s s' : Status) : Bool :=
  statusRank s ≤ statusRank s'

/-- Modelled from the spec: one Fill row of the durable store (section 3). -/
structure Fill where
  tradeId : String
  parentOrderId : String
  instrument : String
  side : String
  fillQuantity : Rat
  fillPrice : Rat
  fillTimestamp : Nat
  sellDeadline : Nat
  status : Status
  deriving DecidableEq, Repr

/-- Modelled from the spec: a raw fill record as returned by the exchange
fills query (section 6). -/
structure RawFill where
  tradeId : String
  parentOrderId : String
  instrument : String
  side : String
  fillQuantity : Rat
  fillPrice : Rat
  fillTimestamp : Nat
  deriving DecidableEq, Repr

/-- The holding period H, fixed at 20 hours = 72,000,000 milliseconds. -/
def holdingPeriodMs : Nat := 72000000

/-- Whether some stored row carries the given trade identifier. -/
def hasTradeId (db : List Fill) (t : String) : Bool :=
  db.any fun f => f.tradeId == t

/-- Modelled from the spec: a raw fill passes the ingestion boundary only when
it is a buy with positive quantity (sections 4.1 and 7, data-quality
rejection). -/
def persistable (r : RawFill) : Bool :=
  r.side == "buy" && decide (0 < r.fillQuantity)

/-- Modelled from the spec: ingestion of one raw fill (section 4.1).  A
non-persistable fill is rejected and nothing is stored.  An unseen `tradeId`
is inserted with `status = unprocessed` and
`sellDeadline = fillTimestamp + H`.  A `tradeId` already present leaves the
stored row unchanged (the documentation describes INSERT OR IGNORE /
conflict-preserving upserts: `status` and `sellDeadline` are never reset). -/
def ingestOne (db : List Fill) (r : RawFill) : List Fill :=
  if persistable r then
    if hasTradeId db r.tradeId then db
    else
      db ++ [{ tradeId := r.tradeId, parentOrderId := r.parentOrderId,
               instrument := r.instrument, side := r.side,
               fillQuantity := r.fillQuantity, fillPrice := r.fillPrice,
               fillTimestamp := r.fillTimestamp,
               sellDeadline := r.fillTimestamp + holdingPeriodMs,
               status := Status.unprocessed }]
  else db

/-- The durable state owned by Fill Ingestion: the Fill table and the
persisted watermark. -/
structure IngestState where
  db : List Fill
  watermark : Nat
  deriving Repr

/-- Modelled from the spec: one ingestion step processes one raw fill; when
the fill is persistable — and hence durably present afterwards, whether newly
inserted or already stored — the watermark advances to the maximum of itself
and that fill's timestamp, and otherwise it is untouched (section 4.1:
advance only past fills successfully persisted, never speculatively). -/
def ingestStep (s : IngestState) (r : RawFill) : IngestState :=
  if persistable r then
    { db := ingestOne s.db r, watermark := max s.watermark r.fillTimestamp }
  else
    { db := s.db, watermark := s.watermark }

/-- Modelled from the spec: an ingestion run processes a prefix of the batch
returned by the exchange query; `k` bounds how many records are processed
before a mid-batch network failure stops the run (already-persisted rows are
not rolled back, section 4.1 edge cases; `k ≥ batch.length` is a run that
completes). -/
def ingestRun (s : IngestState) (batch : List RawFill) (k : Nat) : IngestState :=
  (batch.take k).foldl ingestStep s

/-- A market-sell submission observed at the exchange boundary. -/
structure SellSubmission where
  tradeId : String
  instrument : String
  quantity : Rat
  deriving DecidableEq, Repr

/-- Modelled from the spec: the atomic single-row operations through which
engine invocations touch the shared durable store (section 5).  `lock t now`
is the conditional unprocessed → locked claim attempted by a Liquidation
Scheduler invocation running at wall-clock `now` for a row it selected as
eligible; `complete t` is the locked → completed transition after confirmed
exchange acceptance; `ingest r` is a Fill Ingestion write.  Any number of
concurrent or overlapping invocations is modelled by an arbitrary
interleaving of such operations, i.e. an arbitrary list. -/
inductive EngineOp where
  | lock (tradeId : String) (now : Nat)
  | complete (tradeId : String)
  | ingest (r : RawFill)

/-- The single-row compare-and-swap: every row with the given trade identifier
whose status equals `old` moves to `new`; all other rows are untouched. -/
def casStatus (db : List Fill) (t : String) (old new : Status) : List Fill :=
  db.map fun g =>
    if g.tradeId == t && g.status == old then { g with status := new } else g

/-- Modelled from the spec (section 4.2): one atomic engine operation on the
store.  A `lock` applies only if the row is still unprocessed (and was
selected with `sellDeadline ≤ now`); when it applies, the market sell for
exactly that row's `fillQuantity` on its `instrument` is submitted.  A lock
that does not apply is skipped with no submission.  A `complete` moves a
locked row to completed; on any other status it is rejected (no change).  A
failed sell leaves the row locked: no operation ever moves a row backwards. -/
def engineStep (db : List Fill) : EngineOp → List Fill × List SellSubmission
  | EngineOp.lock t now =>
      match db.find? (fun f => f.tradeId == t && f.status == Status.unprocessed
          && decide (f.sellDeadline ≤ now)) with
      | some f =>
          (casStatus db t Status.unprocessed Status.locked,
           [{ tradeId := t, instrument := f.instrument,
              quantity := f.fillQuantity }])
      | none => (db, [])
  | EngineOp.complete t =>
      (casStatus db t Status.locked Status.completed, [])
  | EngineOp.ingest r => (ingestOne db r, [])

/-- Runs an arbitrary interleaving of engine operations, collecting the
market-sell submissions issued along the way. -/
def engineRun (db : List Fill) : List EngineOp → List Fill × List SellSubmission
  | [] => (db, [])
  | op :: ops =>
      let stepped := engineStep db op
      let rest := engineRun stepped.1 ops
      (rest.1, stepped.2 ++ rest.2)

/-- Number of market-sell submissions issued for one trade identifier. -/
def countSells (evs : List SellSubmission) (t : String) : Nat :=
  (evs.filter fun e => e.tradeId == t).length

/-- Status of the stored row with the given trade identifier. -/
def statusOf (db : List Fill) (t : String) : Option Status :=
  (db.find? fun f => f.tradeId == t).map fun f => f.status

/-- Sell deadline of the stored row with the given trade identifier. -/
def deadlineOf (db : List Fill) (t : String) : Option Nat :=
  (db.find? fun f => f.tradeId == t).map fun f => f.sellDeadline

/-- Modelled from the spec: the operations one Liquidation Scheduler
invocation at wall-clock `now` contributes — for each row selected as
eligible (`unprocessed` with expired deadline), the conditional lock followed,
when the exchange confirms the sell (`accept`), by the completion write. -/
def schedulerInvocationOps (db : List Fill) (now : Nat)
    (accept : String → Bool) : List EngineOp :=
  (db.filter fun f => f.status == Status.unprocessed
      && decide (f.sellDeadline ≤ now)).flatMap fun f =>
    EngineOp.lock f.tradeId now ::
      (if accept f.tradeId then [EngineOp.complete f.tradeId] else [])

theorem hasTradeId_false_find? {db : List Fill} {t : String}
    (h : hasTradeId db t = false) :
    (db.find? fun f => f.tradeId == t) = none := by
  rw [List.find?_eq_none]
  intro f hf hft
  have : hasTradeId db t = true := by
    rw [hasTradeId, List.any_eq_true]
    exact ⟨f, hf, hft⟩
  rw [this] at h
  cases h

theorem deadlineOf_ingestOne_new {db : List Fill} {r : RawFill}
    (hpers : persistable r = true) (hnew : hasTradeId db r.tradeId = false) :
    deadlineOf (ingestOne db r) r.tradeId
        = some (r.fillTimestamp + holdingPeriodMs) ∧
    statusOf (ingestOne db r) r.tradeId = some Status.unprocessed := by
  have hfind := hasTradeId_false_find? hnew
  constructor <;>
    simp [ingestOne, hpers, hnew, deadlineOf, statusOf, List.find?_append, hfind]

theorem deadlineOf_ingestOne_preserved {db : List Fill} {t : String} {d : Nat}
    (h : deadlineOf db t = some d) (r : RawFill) :
    deadlineOf (ingestOne db r) t = some d := by
  rcases hf : db.find? fun f => f.tradeId == t with _ | f
  · rw [deadlineOf, hf] at h
    cases h
  · unfold ingestOne
    split
    · split
      · exact h
      · rw [deadlineOf, List.find?_append, hf]
        rw [deadlineOf, hf] at h
        exact h
    · exact h

theorem deadlineOf_ingestRun_preserved {batch : List RawFill} :
    ∀ {s : IngestState} {t : String} {d : Nat}, deadlineOf s.db t = some d →
    ∀ k, deadlineOf (ingestRun s batch k).db t = some d := by
  induction batch with
  | nil =>
      intro s t d h k
      simp [ingestRun, h]
  | cons r rest ih =>
      intro s t d h k
      cases k with
      | zero => simpa [ingestRun] using h
      | succ k' =>
          have hstep : deadlineOf (ingestStep s r).db t = some d := by
            unfold ingestStep
            split
            · exact deadlineOf_ingestOne_preserved h r
            · exact h
          have := ih hstep k'
          simpa [ingestRun, List.take_succ_cons] using this

/-- C2 (modelled from the spec, fetch_filled_orders.py not being among the
sources): the holding period is fixed at 20 hours = 72,000,000 ms; a first
ingestion of an unseen trade identifier stores
`sellDeadline = fillTimestamp + H` with status `unprocessed`; and later
ingestion runs never overwrite a stored `sellDeadline`. -/
theorem sellDeadline_set_once (db : List Fill) (r : RawFill)
    (batch : List RawFill) (k w : Nat) (t : String) (d : Nat) :
    holdingPeriodMs = 72000000 ∧
    (persistable r = true → hasTradeId db r.tradeId = false →
      deadlineOf (ingestOne db r) r.tradeId
          = some (r.fillTimestamp + holdingPeriodMs) ∧
      statusOf (ingestOne db r) r.tradeId = some Status.unprocessed) ∧
    (deadlineOf db t = some d →
      deadlineOf (ingestRun ⟨db, w⟩ batch k).db t = some d) := by
  refine ⟨rfl, ?_, ?_⟩
  · intro hpers hnew
    exact deadlineOf_ingestOne_new hpers hnew
  · intro h
    exact deadlineOf_ingestRun_preserved h k

/-- Closed witness for C2, the spec's Scenario A: ingesting trade T1 with
fill timestamp 1700000000000 stores sellDeadline 1700072000000 and status
unprocessed, and re-ingesting the same payload leaves the deadline
unchanged. -/
theorem sellDeadline_set_once_witness :
    deadlineOf
        (ingestOne [] ⟨"T1", "ORD1", "BTC-USDT", "buy", 1/100, 50000,
          1700000000000⟩) "T1" = some 1700072000000 ∧
    statusOf
        (ingestOne [] ⟨"T1", "ORD1", "BTC-USDT", "buy", 1/100, 50000,
          1700000000000⟩) "T1" = some Status.unprocessed ∧
    deadlineOf
        (ingestRun
          ⟨ingestOne [] ⟨"T1", "ORD1", "BTC-USDT", "buy", 1/100, 50000,
            1700000000000⟩, 1700000000000⟩
          [⟨"T1", "ORD1", "BTC-USDT", "buy", 1/100, 50000, 1700000000000⟩]
          5).db "T1" = some 1700072000000 := by
  have hpers : persistable
      ⟨"T1", "ORD1", "BTC-USDT", "buy", 1/100, 50000, 1700000000000⟩ = true := by
    norm_num [persistable]
  have hnew : hasTradeId []
      (RawFill.tradeId ⟨"T1", "ORD1", "BTC-USDT", "buy", 1/100, 50000,
        1700000000000⟩) = false := rfl
  have h1 := (sellDeadline_set_once []
      ⟨"T1", "ORD1", "BTC-USDT", "buy", 1/100, 50000, 1700000000000⟩
      [] 0 0 "T1" 0).2.1 hpers hnew
  have h2 := (sellDeadline_set_once
      (ingestOne [] ⟨"T1", "ORD1", "BTC-USDT", "buy", 1/100, 50000,
        1700000000000⟩)
      ⟨"T1", "ORD1", "BTC-USDT", "buy", 1/100, 50000, 1700000000000⟩
      [⟨"T1", "ORD1", "BTC-USDT", "buy", 1/100, 50000, 1700000000000⟩]
      5 1700000000000 "T1" 1700072000000).2.2 h1.1
  exact ⟨h1.1, h1.2, h2⟩

theorem hasTradeId_ingestOne_self {r : RawFill} (db : List Fill)
    (hpers : persistable r = true) :
    hasTradeId (ingestOne db r) r.tradeId = true := by
  unfold ingestOne
  rw [hpers]
  simp only [if_true]
  rcases hh : hasTradeId db r.tradeId with _ | _
  · simp [hasTradeId, List.any_append]
  · exact hh

theorem hasTradeId_ingestOne_mono {db : List Fill} {t : String}
    (h : hasTradeId db t = true) (r : RawFill) :
    hasTradeId (ingestOne db r) t = true := by
  unfold ingestOne
  split
  · split
    · exact h
    · simp [hasTradeId, List.any_append]
      rw [hasTradeId] at h
      simp at h
      exact Or.inl h
  · exact h

theorem hasTradeId_ingestRun_mono {batch : List RawFill} :
    ∀ {s : IngestState} {t : String}, hasTradeId s.db t = true →
    ∀ k, hasTradeId (ingestRun s batch k).db t = true := by
  induction batch with
  | nil =>
      intro s t h k
      simpa [ingestRun] using h
  | cons r rest ih =>
      intro s t h k
      cases k with
      | zero => simpa [ingestRun] using h
      | succ k' =>
          have hstep : hasTradeId (ingestStep s r).db t = true := by
            unfold ingestStep
            split
            · exact hasTradeId_ingestOne_mono h r
            · exact h
          have := ih hstep k'
          simpa [ingestRun, List.take_succ_cons] using this

theorem watermark_ingestRun_mono {batch : List RawFill} :
    ∀ (s : IngestState) (k : Nat),
      s.watermark ≤ (ingestRun s batch k).watermark := by
  induction batch with
  | nil =>
      intro s k
      simp [ingestRun]
  | cons r rest ih =>
      intro s k
      cases k with
      | zero => simp [ingestRun]
      | succ k' =>
          have h1 : s.watermark ≤ (ingestStep s r).watermark := by
            unfold ingestStep
            split
            · exact Nat.le_max_left _ _
            · exact Nat.le_refl _
          have h2 := ih (ingestStep s r) k'
          calc s.watermark ≤ (ingestStep s r).watermark := h1
            _ ≤ _ := by simpa [ingestRun, List.take_succ_cons] using h2

/-- C4 (modelled from the spec, fetch_filled_orders.py not being among the
sources): across an ingestion run that may stop mid-batch after `k` records,
the watermark never decreases; every persisted fill timestamp is covered by
the final watermark; and the final watermark is either unchanged or equals
the timestamp of some fill durably persisted in this run — it never advances
past a timestamp that was not durably persisted and never speculatively. -/
theorem watermark_monotone_sound (s : IngestState) (batch : List RawFill)
    (k : Nat) :
    s.watermark ≤ (ingestRun s batch k).watermark ∧
    (∀ r ∈ batch.take k, persistable r = true →
      r.fillTimestamp ≤ (ingestRun s batch k).watermark) ∧
    ((ingestRun s batch k).watermark = s.watermark ∨
      ∃ r ∈ batch.take k, persistable r = true ∧
        hasTradeId (ingestRun s batch k).db r.tradeId = true ∧
        r.fillTimestamp = (ingestRun s batch k).watermark) := by
  induction batch generalizing s k with
  | nil =>
      refine ⟨by simp [ingestRun], ?_, Or.inl (by simp [ingestRun])⟩
      intro r hr
      simp at hr
  | cons q rest ih =>
      cases k with
      | zero =>
          refine ⟨by simp [ingestRun], ?_, Or.inl (by simp [ingestRun])⟩
          intro r hr
          simp at hr
      | succ k' =>
          have hrun : ingestRun s (q :: rest) (k' + 1)
              = ingestRun (ingestStep s q) rest k' := by
            simp [ingestRun, List.take_succ_cons]
          rcases ih (ingestStep s q) k' with ⟨ihmono, ihcover, ihtight⟩
          refine ⟨?_, ?_, ?_⟩
          · rw [hrun]
            refine le_trans ?_ ihmono
            unfold ingestStep
            split
            · exact Nat.le_max_left _ _
            · exact Nat.le_refl _
          · intro r hr hpers
            rw [hrun]
            rcases List.mem_cons.mp (by simpa [List.take_succ_cons] using hr)
                with hrq | hrmem
            · subst hrq
              refine le_trans ?_ ihmono
              unfold ingestStep
              rw [hpers]
              exact Nat.le_max_right _ _
            · exact ihcover r hrmem hpers
          · rw [hrun]
            rcases ihtight with heq | ⟨r, hrmem, hpers, hhas, hts⟩
            · rcases hpq : persistable q with _ | _
              · have hwm : (ingestStep s q).watermark = s.watermark := by
                  simp [ingestStep, hpq]
                left
                rw [heq, hwm]
              · have hwm : (ingestStep s q).watermark
                    = max s.watermark q.fillTimestamp := by
                  simp [ingestStep, hpq]
                rcases max_choice s.watermark q.fillTimestamp with hmx | hmx
                · left
                  rw [heq, hwm, hmx]
                · right
                  refine ⟨q, by simp [List.take_succ_cons], hpq, ?_, ?_⟩
                  · have hself : hasTradeId (ingestStep s q).db q.tradeId
                        = true := by
                      unfold ingestStep
                      rw [hpq]
                      exact hasTradeId_ingestOne_self s.db hpq
                    exact hasTradeId_ingestRun_mono hself k'
                  · rw [heq, hwm, hmx]
            · right
              exact ⟨r, by simp [List.take_succ_cons]; exact Or.inr hrmem,
                hpers, hhas, hts⟩

theorem casStatus_tradeId_comp (t' : String) (old new : Status) (t : String) :
    ((fun g : Fill => g.tradeId == t) ∘ fun g : Fill =>
        if g.tradeId == t' && g.status == old then { g with status := new }
        else g)
      = fun g : Fill => g.tradeId == t := by
  funext g
  simp only [Function.comp]
  split <;> rfl

theorem find?_casStatus (db : List Fill) (t' : String) (old new : Status)
    (t : String) :
    ((casStatus db t' old new).find? fun f => f.tradeId == t)
      = (db.find? fun f => f.tradeId == t).map fun g =>
          if g.tradeId == t' && g.status == old then { g with status := new }
          else g := by
  rw [casStatus, List.find?_map, casStatus_tradeId_comp]

theorem hasTradeId_casStatus (db : List Fill) (t' : String) (old new : Status)
    (t : String) :
    hasTradeId (casStatus db t' old new) t = hasTradeId db t := by
  rw [hasTradeId, casStatus, List.any_map, casStatus_tradeId_comp, hasTradeId]

/-- The trade identifier is present and no row holding it is unprocessed:
the shape of the store for `t` after a successful conditional lock. -/
def lockedBeyond (db : List Fill) (t : String) : Prop :=
  hasTradeId db t = true ∧
    ∀ f ∈ db, f.tradeId = t → f.status ≠ Status.unprocessed

theorem lockedBeyond_casStatus {db : List Fill} {t : String}
    (h : lockedBeyond db t) (t' : String) (old : Status) {new : Status}
    (hnew : new ≠ Status.unprocessed) :
    lockedBeyond (casStatus db t' old new) t := by
  refine ⟨by rw [hasTradeId_casStatus]; exact h.1, ?_⟩
  intro f' hf' hft
  rcases List.mem_map.mp hf' with ⟨g, hg, hupd⟩
  by_cases hc : (g.tradeId == t' && g.status == old) = true
  · rw [← hupd]
    simp only [hc, if_true]
    exact hnew
  · rw [← hupd]
    simp only [hc, if_false]
    apply h.2 g hg
    rw [← hupd] at hft
    simpa [hc] using hft

theorem lockedBeyond_ingestOne {db : List Fill} {t : String}
    (h : lockedBeyond db t) (r : RawFill) :
    lockedBeyond (ingestOne db r) t := by
  unfold ingestOne
  split
  · split
    · exact h
    · rename_i hpers hnew
      constructor
      · have h1 := h.1
        simp only [hasTradeId, List.any_append, Bool.or_eq_true]
        simp only [hasTradeId] at h1
        exact Or.inl h1
      · intro f hf hft
        rcases List.mem_append.mp hf with hf | hf
        · exact h.2 f hf hft
        · exfalso
          simp only [List.mem_singleton] at hf
          subst hf
          simp only at hft
          apply hnew
          rw [hft]
          exact h.1
  · exact h

theorem countSells_append (a b : List SellSubmission) (t : String) :
    countSells (a ++ b) t = countSells a t + countSells b t := by
  rw [countSells, countSells, countSells, List.filter_append,
    List.length_append]

theorem lockedBeyond_engineStep {db : List Fill} {t : String}
    (h : lockedBeyond db t) (op : EngineOp) :
    lockedBeyond (engineStep db op).1 t ∧
      countSells (engineStep db op).2 t = 0 := by
  cases op with
  | lock t' now =>
      rcases hfind : db.find? (fun f => f.tradeId == t'
          && f.status == Status.unprocessed
          && decide (f.sellDeadline ≤ now)) with _ | f
      · simp only [engineStep, hfind]
        exact ⟨h, rfl⟩
      · have hpred := List.find?_some hfind
        have hmem := List.mem_of_find?_eq_some hfind
        simp only [Bool.and_eq_true, beq_iff_eq, decide_eq_true_eq] at hpred
        have htne : t' ≠ t := by
          intro hteq
          subst hteq
          exact h.2 f hmem hpred.1.1 hpred.1.2
        simp only [engineStep, hfind]
        refine ⟨lockedBeyond_casStatus h t' Status.unprocessed (by simp), ?_⟩
        simp [countSells, htne]
  | complete t' =>
      simp only [engineStep]
      exact ⟨lockedBeyond_casStatus h t' Status.locked (by simp), rfl⟩
  | ingest r =>
      simp only [engineStep]
      exact ⟨lockedBeyond_ingestOne h r, rfl⟩

theorem countSells_engineRun_lockedBeyond {t : String} :
    ∀ (ops : List EngineOp) {db : List Fill}, lockedBeyond db t →
      countSells (engineRun db ops).2 t = 0 := by
  intro ops
  induction ops with
  | nil =>
      intro db _
      rfl
  | cons op rest ih =>
      intro db h
      have hstep := lockedBeyond_engineStep h op
      simp only [engineRun]
      rw [countSells_append, hstep.2, ih hstep.1]

theorem lockedBeyond_of_lock_success {db : List Fill} {t : String} {now : Nat}
    {f : Fill}
    (hfind : db.find? (fun f => f.tradeId == t
        && f.status == Status.unprocessed
        && decide (f.sellDeadline ≤ now)) = some f) :
    lockedBeyond (casStatus db t Status.unprocessed Status.locked) t := by
  have hpred := List.find?_some hfind
  have hmem := List.mem_of_find?_eq_some hfind
  simp only [Bool.and_eq_true, beq_iff_eq, decide_eq_true_eq] at hpred
  constructor
  · rw [hasTradeId_casStatus, hasTradeId, List.any_eq_true]
    exact ⟨f, hmem, by simp [hpred.1.1]⟩
  · intro f' hf' hft
    rcases List.mem_map.mp hf' with ⟨g, hg, hupd⟩
    subst hupd
    by_cases hc : (g.tradeId == t && g.status == Status.unprocessed) = true
    · simp [hc]
    · have hcf : (g.tradeId == t && g.status == Status.unprocessed)
          = false := by
        simpa using hc
      simp [hcf] at hft ⊢
      intro hst
      rw [hft, hst] at hcf
      simp at hcf

theorem countSells_engineRun_le_one {t : String} :
    ∀ (ops : List EngineOp) (db : List Fill),
      countSells (engineRun db ops).2 t ≤ 1 := by
  intro ops
  induction ops with
  | nil =>
      intro db
      simp [engineRun, countSells]
  | cons op rest ih =>
      intro db
      simp only [engineRun]
      rw [countSells_append]
      cases op with
      | lock t' now =>
          rcases hfind : db.find? (fun f => f.tradeId == t'
              && f.status == Status.unprocessed
              && decide (f.sellDeadline ≤ now)) with _ | f
          · simpa [engineStep, hfind, countSells] using ih db
          · by_cases hteq : t' = t
            · subst hteq
              have hlb := lockedBeyond_of_lock_success hfind
              simp only [engineStep, hfind]
              rw [countSells_engineRun_lockedBeyond rest hlb]
              simp [countSells]
            · simp only [engineStep, hfind]
              have : countSells
                  [({ tradeId := t', instrument := f.instrument,
                      quantity := f.fillQuantity } : SellSubmission)] t = 0 := by
                simp [countSells, hteq]
              rw [this]
              simpa using ih _
      | complete t' =>
          simpa [engineStep, countSells] using ih _
      | ingest r =>
          simpa [engineStep, countSells] using ih _

/-- A stored row for `t` that is unprocessed and past its deadline at `now`. -/
def eligibleRow (db : List Fill) (t : String) (now : Nat) : Prop :=
  ∃ f ∈ db, f.tradeId = t ∧ f.status = Status.unprocessed ∧
    f.sellDeadline ≤ now

theorem lock_of_eligibleRow {db : List Fill} {t : String} {now : Nat}
    (h : eligibleRow db t now) :
    countSells (engineStep db (EngineOp.lock t now)).2 t = 1 := by
  rcases h with ⟨f, hmem, hft, hst, hdl⟩
  rcases hfind : db.find? (fun f => f.tradeId == t
      && f.status == Status.unprocessed
      && decide (f.sellDeadline ≤ now)) with _ | g
  · exfalso
    rw [List.find?_eq_none] at hfind
    exact hfind f hmem (by simp [hft, hst, hdl])
  · simp [engineStep, hfind, countSells]

theorem eligibleRow_engineStep {db : List Fill} {t : String} {now : Nat}
    (h : eligibleRow db t now) (op : EngineOp) :
    1 ≤ countSells (engineStep db op).2 t ∨
      eligibleRow (engineStep db op).1 t now := by
  rcases h with ⟨f, hmem, hft, hst, hdl⟩
  cases op with
  | lock t' now' =>
      rcases hfind : db.find? (fun f => f.tradeId == t'
          && f.status == Status.unprocessed
          && decide (f.sellDeadline ≤ now')) with _ | g
      · right
        simp only [engineStep, hfind]
        exact ⟨f, hmem, hft, hst, hdl⟩
      · by_cases hteq : t' = t
        · left
          subst hteq
          simp [engineStep, hfind, countSells]
        · right
          simp only [engineStep, hfind]
          refine ⟨if f.tradeId == t' && f.status == Status.unprocessed
              then { f with status := Status.locked } else f,
            List.mem_map_of_mem _ hmem, ?_⟩
          have hid : (f.tradeId == t') = false := by
            rw [hft]
            exact beq_eq_false_iff_ne.mpr fun h' => hteq h'.symm
          have hc : (f.tradeId == t' && f.status == Status.unprocessed)
              = false := by
            rw [hid, Bool.false_and]
          rw [hc, if_neg Bool.false_ne_true]
          exact ⟨hft, hst, hdl⟩
  | complete t' =>
      right
      simp only [engineStep]
      refine ⟨if f.tradeId == t' && f.status == Status.locked
          then { f with status := Status.completed } else f,
        List.mem_map_of_mem _ hmem, ?_⟩
      have hsl : (Status.unprocessed == Status.locked) = false := by decide
      have hc : (f.tradeId == t' && f.status == Status.locked) = false := by
        rw [hst, hsl, Bool.and_false]
      rw [hc, if_neg Bool.false_ne_true]
      exact ⟨hft, hst, hdl⟩
  | ingest r =>
      right
      simp only [engineStep]
      unfold ingestOne
      split
      · split
        · exact ⟨f, hmem, hft, hst, hdl⟩
        · exact ⟨f, List.mem_append_left _ hmem, hft, hst, hdl⟩
      · exact ⟨f, hmem, hft, hst, hdl⟩

theorem countSells_engineRun_ge_one {t : String} {now : Nat} :
    ∀ (ops : List EngineOp) (db : List Fill), eligibleRow db t now →
      EngineOp.lock t now ∈ ops →
      1 ≤ countSells (engineRun db ops).2 t := by
  intro ops
  induction ops with
  | nil =>
      intro db _ hmem
      cases hmem
  | cons op rest ih =>
      intro db helig hmem
      simp only [engineRun]
      rw [countSells_append]
      rcases List.mem_cons.mp hmem with hop | hmem'
      · subst hop
        have := lock_of_eligibleRow helig
        omega
      · rcases eligibleRow_engineStep helig op with hsold | helig'
        · omega
        · have := ih (engineStep db op).1 helig' hmem'
          omega

/-- C1 (modelled from the spec, auto_sell_orders.py not being among the
sources): across any interleaving of the atomic store operations of any
number of concurrent or overlapping Liquidation Scheduler invocations,
exactly one market-sell submission is ever issued for a fixed tradeId,
mutual exclusion coming from the single-row compare-and-swap that moves
status from unprocessed to locked only if it is still unprocessed. -/
theorem exactly_once_sell (db : List Fill) (ops : List EngineOp) (t : String)
    (now : Nat) (helig : eligibleRow db t now)
    (hmem : EngineOp.lock t now ∈ ops) :
    countSells (engineRun db ops).2 t = 1 :=
  Nat.le_antisymm (countSells_engineRun_le_one ops db)
    (countSells_engineRun_ge_one ops db helig hmem)

/-- Closed witness for C1, the spec's Scenario D: two overlapping invocations
both attempt to claim T1 after its deadline; exactly one market sell is
submitted. -/
theorem exactly_once_sell_witness :
    countSells
      (engineRun
        [⟨"T1", "ORD1", "BTC-USDT", "buy", 1/100, 50000, 1700000000000,
          1700072000000, Status.unprocessed⟩]
        [EngineOp.lock "T1" 1700072000001, EngineOp.lock "T1" 1700072000001,
          EngineOp.complete "T1"]).2 "T1" = 1 := by
  refine exactly_once_sell _ _ _ 1700072000001
    ⟨⟨"T1", "ORD1", "BTC-USDT", "buy", 1/100, 50000, 1700000000000,
      1700072000000, Status.unprocessed⟩, ?_, rfl, rfl, by norm_num⟩ ?_
  · simp
  · simp

theorem statusLe_refl (s : Status) : statusLe s s = true := by
  simp [statusLe]

theorem statusLe_trans {a b c : Status} (h1 : statusLe a b = true)
    (h2 : statusLe b c = true) : statusLe a c = true := by
  simp only [statusLe, decide_eq_true_eq] at h1 h2 ⊢
  omega

theorem statusOf_casStatus {db : List Fill} {t : String} {s : Status}
    (h : statusOf db t = some s) (t' : String) {old new : Status}
    (hle : statusLe old new = true) :
    ∃ s', statusOf (casStatus db t' old new) t = some s'
      ∧ statusLe s s' = true := by
  rcases hf : db.find? (fun f => f.tradeId == t) with _ | f
  · rw [statusOf, hf] at h
    cases h
  · rw [statusOf, hf, Option.map_some'] at h
    have hs : f.status = s := Option.some.inj h
    rw [statusOf, find?_casStatus, hf, Option.map_some', Option.map_some']
    by_cases hc : (f.tradeId == t' && f.status == old) = true
    · refine ⟨new, by rw [if_pos hc], ?_⟩
      have hold : f.status = old := by
        have := (Bool.and_eq_true _ _).mp hc
        exact beq_iff_eq.mp this.2
      rw [← hs, hold]
      exact hle
    · have hcf : (f.tradeId == t' && f.status == old) = false := by
        simpa using hc
      refine ⟨s, ?_, statusLe_refl s⟩
      rw [hcf, if_neg Bool.false_ne_true, hs]

theorem statusOf_ingestOne_preserved {db : List Fill} {t : String} {s : Status}
    (h : statusOf db t = some s) (r : RawFill) :
    statusOf (ingestOne db r) t = some s := by
  rcases hf : db.find? (fun f => f.tradeId == t) with _ | f
  · rw [statusOf, hf] at h
    cases h
  · unfold ingestOne
    split
    · split
      · exact h
      · rw [statusOf, List.find?_append, hf]
        rw [statusOf, hf] at h
        exact h
    · exact h

theorem statusOf_engineStep {db : List Fill} {t : String} {s : Status}
    (h : statusOf db t = some s) (op : EngineOp) :
    ∃ s', statusOf (engineStep db op).1 t = some s'
      ∧ statusLe s s' = true := by
  cases op with
  | lock t' now =>
      rcases hfind : db.find? (fun f => f.tradeId == t'
          && f.status == Status.unprocessed
          && decide (f.sellDeadline ≤ now)) with _ | g
      · simp only [engineStep, hfind]
        exact ⟨s, h, statusLe_refl s⟩
      · simp only [engineStep, hfind]
        exact statusOf_casStatus h t' rfl
  | complete t' =>
      simp only [engineStep]
      exact statusOf_casStatus h t' rfl
  | ingest r =>
      simp only [engineStep]
      exact ⟨s, statusOf_ingestOne_preserved h r, statusLe_refl s⟩

/-- C3 (modelled from the spec, the engine scripts not being among the
sources): across any sequence of engine operations — conditional locks,
completions after confirmed sells, and ingestion passes — the status of a
stored Fill row only ever moves forward along
unprocessed → locked → completed; no operation moves a row backwards (a
failed or unconfirmed sell leaves the row locked, and the conditional
updates reject every other transition). -/
theorem status_transitions_monotone (db : List Fill) (ops : List EngineOp)
    (t : String) (s : Status) (h : statusOf db t = some s) :
    ∃ s', statusOf (engineRun db ops).1 t = some s'
      ∧ statusLe s s' = true := by
  induction ops generalizing db s with
  | nil => exact ⟨s, h, statusLe_refl s⟩
  | cons op rest ih =>
      rcases statusOf_engineStep h op with ⟨s₁, h₁, hle₁⟩
      rcases ih (engineStep db op).1 s₁ h₁ with ⟨s', h', hle'⟩
      exact ⟨s', by simpa [engineRun] using h', statusLe_trans hle₁ hle'⟩

/-- Closed witness for C3, the spec's Scenario B: T1 is locked after its
deadline and completed on exchange acceptance; its status evolves forward
from unprocessed. -/
theorem status_transitions_monotone_witness :
    ∃ s', statusOf
        (engineRun
          [⟨"T1", "ORD1", "BTC-USDT", "buy", 1/100, 50000, 1700000000000,
            1700072000000, Status.unprocessed⟩]
          [EngineOp.lock "T1" 1700072000001, EngineOp.complete "T1"]).1
        "T1" = some s' ∧ statusLe Status.unprocessed s' = true := by
  refine status_transitions_monotone _ _ "T1" Status.unprocessed ?_
  rfl

/-- Model of JavaScript `Number.prototype.toFixed(d)`, read back as a number:
rounding to `d` decimal places (nearest, ties upward; every theorem below
evaluates it away from ties and at magnitudes where the binary double and the
exact value round alike). -/
def toFixed (d : Nat) (q : Rat) : Rat :=
  ((round (q * (10 : Rat) ^ d) : Int) : Rat) / (10 : Rat) ^ d

/-- Embeds `AlgoTradingService.formatTradingPair`
(src/lib/algo-trading.ts lines 198-200). -/
def formatTradingPair (symbol : String) : String :=
  if symbol.contains '-' then symbol else symbol ++ "-USDT"

/-- An order request as built by `placeTriggerOrderForCrypto`
(src/lib/algo-trading.ts lines 122-130); `sz` and `px` hold the numeric
values whose fixed-precision decimal strings the source sends
(`toFixed(8)` and `toFixed(4)`). -/
structure AlgoOrderReq where
  instId : String
  tdMode : String
  side : String
  ordType : String
  sz : Rat
  px : Rat
  deriving DecidableEq, Repr

/-- Per-instrument result of the algorithmic buy loop (src/lib/algo-trading.ts,
interface `TriggerOrderResult`; the timestamp field is dropped). -/
structure TriggerOrderResult where
  symbol : String
  success : Bool
  orderId : Option String
  triggerPrice : Rat
  amount : Rat
  message : String
  deriving DecidableEq, Repr

/-- Embeds `AlgoTradingService.placeTriggerOrderForCrypto`
(src/lib/algo-trading.ts lines 105-158).  The JavaScript number arithmetic is
idealized as exact rationals, which only favours the specification's
precision claims; `limit` is the already-parsed `parseFloat(config.limit)`;
`net` supplies the outcome of the single `okxClient.placeOrder` call (a
division by a zero trigger price, `Infinity` in JavaScript, is rational `0`
here — no theorem below evaluates that path).  The first component lists the
order requests issued; the `Except` result models a thrown error, caught by
the caller. -/
def placeTriggerOrderForCrypto (symbol : String) (limit : Rat)
    (balanceAmount : Rat) (dayOpenPrice : Rat)
    (net : Except String OKXResponse) :
    List AlgoOrderReq × Except String TriggerOrderResult :=
  let limitPercentage := limit / 100
  let triggerPrice := dayOpenPrice * limitPercentage
  let cryptoAmount := balanceAmount / triggerPrice
  let req : AlgoOrderReq :=
    { instId := formatTradingPair symbol, tdMode := "cash", side := "buy",
      ordType := "limit", sz := toFixed 8 cryptoAmount,
      px := toFixed 4 triggerPrice }
  match net with
  | Except.error e => ([req], Except.error e)
  | Except.ok resp =>
      match resp.data with
      | [] => ([req], Except.error "No order data received from OKX")
      | ack :: _ =>
          ([req],
           Except.ok
             { symbol := symbol, success := true, orderId := some ack.ordId,
               triggerPrice := triggerPrice, amount := cryptoAmount,
               message := "Trigger order placed successfully" })

/-- The failure entry pushed by the catch branch of the loop in
`executeAlgoBuyOrders` (src/lib/algo-trading.ts lines 81-88). -/
def algoFailureResult (symbol : String) (balance : Rat) (msg : String) :
    TriggerOrderResult :=
  { symbol := symbol, success := false, orderId := none, triggerPrice := 0,
    amount := balance, message := msg }

/-- Embeds one iteration of the instrument loop of `executeAlgoBuyOrders`
(src/lib/algo-trading.ts lines 63-90): a thrown error is caught and recorded
as that instrument's failure entry, and the loop continues. -/
def algoItem (balance : Rat) (prices : String → Rat)
    (nets : String → Except String OKXResponse) (it : String × Rat) :
    List AlgoOrderReq × TriggerOrderResult :=
  match placeTriggerOrderForCrypto it.1 it.2 balance (prices it.1)
      (nets it.1) with
  | (reqs, Except.ok r) => (reqs, r)
  | (reqs, Except.error e) => (reqs, algoFailureResult it.1 balance e)

/-- Embeds the instrument loop of `AlgoTradingService.executeAlgoBuyOrders`
(src/lib/algo-trading.ts lines 39-99): every configured instrument is
processed with the shared USDT balance, requests and per-instrument results
accumulating in order; `prices` and `nets` supply the reference prices and
the per-call exchange outcomes. -/
def executeAlgoBuyOrders (cfgs : List (String × Rat)) (balance : Rat)
    (prices : String → Rat) (nets : String → Except String OKXResponse) :
    List AlgoOrderReq × List TriggerOrderResult :=
  cfgs.foldl (fun acc it =>
    let item := algoItem balance prices nets it
    (acc.1 ++ item.1, acc.2 ++ [item.2])) ([], [])

/-- One account balance entry as used by the market-sell endpoint
(src/lib/okx.ts, interface `OKXBalance`; only `ccy` and `bal` are read). -/
structure BalanceEntry where
  ccy : String
  bal : String
  deriving DecidableEq, Repr

/-- One entry of the `sellResults` array built by the market-sell endpoint
(src/app/api/market-sell/route.ts lines 103-137). -/
structure SellResultEntry where
  symbol : String
  size : Option Rat
  success : Bool
  message : String
  deriving DecidableEq, Repr

/-- A market-sell order request as built at
src/app/api/market-sell/route.ts lines 90-96; `sz` holds the numeric value
whose string `assetSize.toString()` the source sends. -/
structure SellOrderReq where
  instId : String
  tdMode : String
  side : String
  ordType : String
  sz : Rat
  deriving DecidableEq, Repr

/-- The failure entry the market-sell endpoint records for an asset whose
iteration throws at the ticker call: route.ts line 78 invokes
`okxClient.getMarketTicker(symbol)`, a method `OKXClient` (src/lib/okx.ts)
never defines, so the call raises a TypeError whose message is recorded by
the per-asset catch at lines 131-139. -/
def tickerFailure (b : BalanceEntry) : SellResultEntry :=
  { symbol := b.ccy ++ "-USDT", size := none, success := false,
    message := "okxClient.getMarketTicker is not a function" }

/-- Whether one iteration of the balances loop reaches the ticker call: the
skip at route.ts line 72 is `!balance.bal || parseFloat(balance.bal) <= 0`,
so an empty `bal` or one parsing non-positive is skipped by `continue`, while
a positive-parsing or unparsable (`NaN <= 0` is false) balance proceeds. -/
def proceedsToTicker (b : BalanceEntry) : Bool :=
  !(b.bal == "") && !((parseFloat? b.bal).any fun q => decide (q ≤ 0))

/-- Embeds one iteration of the balances loop of the market-sell endpoint
POST handler (src/app/api/market-sell/route.ts lines 69-140).  An empty or
non-positive-parsing balance is skipped with no result entry (`continue`);
every other asset — including one whose balance string does not parse, since
`NaN <= 0` is false — proceeds to the `okxClient.getMarketTicker` call on
line 78.  `OKXClient` defines no such method, so that call always throws a
TypeError, which the per-asset catch on line 131 records as this asset's
failure entry; the `placeOrder` call on line 90 is unreachable and the
iteration issues no order request. -/
def processBalance (b : BalanceEntry) :
    List SellOrderReq × List SellResultEntry :=
  if b.bal = "" then ([], [])
  else
    match parseFloat? b.bal with
    | some assetSize =>
        if assetSize ≤ 0 then ([], [])
        else ([], [tickerFailure b])
    | none => ([], [tickerFailure b])

/-- Embeds the whole balances loop of the market-sell endpoint POST handler:
the balances are processed in order, result entries accumulating; an error on
one asset is caught inside the loop body and never aborts the loop. -/
def marketSellLoop (balances : List BalanceEntry) :
    List SellOrderReq × List SellResultEntry :=
  balances.foldl (fun acc b =>
    let item := processBalance b
    (acc.1 ++ item.1, acc.2 ++ item.2)) ([], [])

theorem executeAlgoBuyOrders_foldl (balance : Rat) (prices : String → Rat)
    (nets : String → Except String OKXResponse) :
    ∀ (cfgs : List (String × Rat))
      (acc : List AlgoOrderReq × List TriggerOrderResult),
      cfgs.foldl (fun acc it =>
        let item := algoItem balance prices nets it
        (acc.1 ++ item.1, acc.2 ++ [item.2])) acc
      = (acc.1 ++ cfgs.flatMap fun it => (algoItem balance prices nets it).1,
         acc.2 ++ cfgs.map fun it => (algoItem balance prices nets it).2) := by
  intro cfgs
  induction cfgs with
  | nil =>
      intro acc
      simp
  | cons it rest ih =>
      intro acc
      simp only [List.foldl_cons, List.flatMap_cons, List.map_cons]
      rw [ih]
      simp [List.append_assoc]

theorem executeAlgoBuyOrders_eq (cfgs : List (String × Rat)) (balance : Rat)
    (prices : String → Rat) (nets : String → Except String OKXResponse) :
    executeAlgoBuyOrders cfgs balance prices nets
      = (cfgs.flatMap fun it => (algoItem balance prices nets it).1,
         cfgs.map fun it => (algoItem balance prices nets it).2) := by
  unfold executeAlgoBuyOrders
  rw [executeAlgoBuyOrders_foldl]
  simp

theorem marketSellLoop_foldl :
    ∀ (balances : List BalanceEntry)
      (acc : List SellOrderReq × List SellResultEntry),
      balances.foldl (fun acc b =>
        let item := processBalance b
        (acc.1 ++ item.1, acc.2 ++ item.2)) acc
      = (acc.1 ++ balances.flatMap fun b => (processBalance b).1,
         acc.2 ++ balances.flatMap fun b => (processBalance b).2) := by
  intro balances
  induction balances with
  | nil =>
      intro acc
      simp
  | cons b rest ih =>
      intro acc
      simp only [List.foldl_cons, List.flatMap_cons]
      rw [ih]
      simp [List.append_assoc]

theorem marketSellLoop_eq (balances : List BalanceEntry) :
    marketSellLoop balances
      = (balances.flatMap fun b => (processBalance b).1,
         balances.flatMap fun b => (processBalance b).2) := by
  unfold marketSellLoop
  rw [marketSellLoop_foldl]
  simp

theorem placeTrigger_reqs_shape (symbol : String) (limit balance price : Rat)
    (net : Except String OKXResponse) :
    (placeTriggerOrderForCrypto symbol limit balance price net).1
      = [{ instId := formatTradingPair symbol, tdMode := "cash",
           side := "buy", ordType := "limit",
           sz := toFixed 8 (balance / (price * (limit / 100))),
           px := toFixed 4 (price * (limit / 100)) }] := by
  unfold placeTriggerOrderForCrypto
  cases net with
  | error e => rfl
  | ok resp =>
      dsimp only
      cases resp.data with
      | nil => rfl
      | cons a t => rfl

/-- C7 restated over the in-repo calculator, following the claim's words: for
an instrument it computes more than one trigger price and places one
trigger-type conditional order per price. -/
def claimMultiTrigger (symbol : String) (limit balance price : Rat)
    (net : Except String OKXResponse) : Prop :=
  1 < (placeTriggerOrderForCrypto symbol limit balance price net).1.length ∧
    ∀ r ∈ (placeTriggerOrderForCrypto symbol limit balance price net).1,
      r.ordType = "trigger"

/-- Counterexample to C7: for a concrete instrument the in-repo calculator
issues exactly one order, and it is an ordinary limit order, not a
trigger-type conditional order. -/
theorem single_limit_order_cex :
    ¬ claimMultiTrigger "BTC" 94 100 43250
        (Except.ok ⟨"0", "", [⟨"", "ord1", "0"⟩]⟩) := by
  intro h
  have h1 := h.1
  rw [placeTrigger_reqs_shape] at h1
  simp at h1

/-- C7 amended: for each instrument the in-repo calculator
(src/lib/algo-trading.ts) computes exactly one trigger price,
`P·(limit/100)` rounded at 4 decimal places — no offsets around it — and
places exactly one buy order for it with ordType "limit" via the plain
order-placement interface (`placeTriggerOrder` of src/lib/okx.ts has no
caller in the sources); per-instrument success or failure is reported
independently. -/
theorem one_limit_buy_order_per_instrument (symbol : String)
    (limit balance price : Rat) (net : Except String OKXResponse) :
    ((placeTriggerOrderForCrypto symbol limit balance price net).1.map
        fun r => (r.side, r.ordType, r.instId, r.px))
      = [("buy", "limit", formatTradingPair symbol,
          toFixed 4 (price * (limit / 100)))] := by
  rw [placeTrigger_reqs_shape]
  rfl

/-- C6 restated at one instrument, following the claim's words: with exact
decimal arithmetic at a per-instrument scale, a positive reference price and
a positive coefficient yield a trigger price of positive resolution. -/
def claimPositiveTriggerPx (symbol : String) (limit balance price : Rat)
    (net : Except String OKXResponse) : Prop :=
  ∀ r ∈ (placeTriggerOrderForCrypto symbol limit balance price net).1,
    0 < r.px

/-- Counterexample to C6: for a low-unit-price instrument (reference price
0.00001, as for PEPE-style instruments, coefficient 94) the fixed 4-decimal
formatting of src/lib/algo-trading.ts rounds the trigger price to exactly 0 —
zero resolution — even under exact arithmetic; the decimal scale is not
chosen per instrument. -/
theorem trigger_price_zero_resolution_cex :
    (0 : Rat) < 1 / 100000 ∧ (0 : Rat) < 94 ∧
    ¬ claimPositiveTriggerPx "PEPE" 94 100 (1 / 100000)
        (Except.ok ⟨"0", "", [⟨"", "ord1", "0"⟩]⟩) := by
  have hzero : toFixed 4 ((1 / 100000 : Rat) * (94 / 100)) = 0 := by
    rw [toFixed, round_eq]
    norm_num
  refine ⟨by norm_num, by norm_num, ?_⟩
  intro h
  have h0 := h _ (by
    rw [placeTrigger_reqs_shape]
    exact List.mem_singleton_self _)
  have h0' : (0 : Rat) < toFixed 4 ((1 / 100000 : Rat) * (94 / 100)) := h0
  rw [hzero] at h0'
  exact lt_irrefl 0 h0'

/-- C6 amended: the in-repo calculator computes the trigger price from the
reference price and coefficient in the host language's binary floating point
(idealized here as exact rationals, which only favours the precision claim)
and formats it at the fixed scale of 4 decimal places for every instrument
(8 decimal places for the size); the scale is not chosen per instrument, so
instruments priced below the 10^-4 resolution collapse to zero (per-coin
dynamic precision exists only in the out-of-repo Python script
create_algo_triggers.py). -/
theorem trigger_price_fixed_scale (symbol : String)
    (limit balance price : Rat) (net : Except String OKXResponse) :
    ((placeTriggerOrderForCrypto symbol limit balance price net).1.map
        fun r => r.px) = [toFixed 4 (price * (limit / 100))] ∧
    ((placeTriggerOrderForCrypto symbol limit balance price net).1.map
        fun r => r.sz)
      = [toFixed 8 (balance / (price * (limit / 100)))] ∧
    ∃ n : Int, toFixed 4 (price * (limit / 100)) = (n : Rat) / 10 ^ 4 := by
  refine ⟨?_, ?_, ⟨round (price * (limit / 100) * (10 : Rat) ^ 4), rfl⟩⟩ <;>
    rw [placeTrigger_reqs_shape] <;> rfl

theorem processBalance_no_requests (b : BalanceEntry) :
    (processBalance b).1 = [] := by
  unfold processBalance
  split
  · rfl
  · rcases parseFloat? b.bal with _ | q
    · rfl
    · dsimp only
      split
      · rfl
      · rfl

theorem processBalance_entries (b : BalanceEntry) :
    (processBalance b).2
      = if proceedsToTicker b = true then [tickerFailure b] else [] := by
  unfold processBalance proceedsToTicker
  by_cases hb : b.bal = ""
  · have hb' : (b.bal == "") = true := by simpa using hb
    rw [if_pos hb, hb']
    rfl
  · have hb' : (b.bal == "") = false := by simpa using hb
    rw [if_neg hb, hb']
    rcases hpf : parseFloat? b.bal with _ | q
    · dsimp only
      simp [Option.any]
    · dsimp only
      by_cases hq : q ≤ 0
      · rw [if_pos hq]
        simp [Option.any, hq]
      · rw [if_neg hq]
        simp [Option.any, hq]

theorem marketSellLoop_no_orders (balances : List BalanceEntry) :
    (marketSellLoop balances).1 = [] := by
  rw [marketSellLoop_eq]
  dsimp only
  induction balances with
  | nil => rfl
  | cons b rest ih =>
      rw [List.flatMap_cons, processBalance_no_requests]
      simpa using ih

theorem marketSellLoop_len (balances : List BalanceEntry) :
    (marketSellLoop balances).2.length
      = (balances.filter proceedsToTicker).length := by
  rw [marketSellLoop_eq]
  dsimp only
  induction balances with
  | nil => rfl
  | cons b rest ih =>
      rw [List.flatMap_cons, List.length_append, List.filter_cons,
        processBalance_entries]
      by_cases hp : proceedsToTicker b = true
      · rw [if_pos hp, if_pos hp]
        simp only [List.length_cons, List.length_nil]
        omega
      · rw [if_neg hp, if_neg hp]
        simpa using ih

/-- C8 restated over the market-sell endpoint loop, following the claim's
words: the returned result list contains one entry per input item. -/
def claimEntryPerItem (balances : List BalanceEntry) : Prop :=
  (marketSellLoop balances).2.length = balances.length

/-- Counterexample to C8: an asset whose balance parses to 0 is skipped by
`continue` with no result entry at all, although nothing failed — so the
result list does not contain one entry per input item. -/
theorem entry_per_item_cex :
    ¬ claimEntryPerItem [⟨"BTC", "0"⟩] := by
  have hpf : parseFloat? "0" = some 0 := by
    simp [parseFloat?, digitsVal, fracVal]
  have hne : ¬ (("0" : String) = "") := by decide
  have hloop : (marketSellLoop [(⟨"BTC", "0"⟩ : BalanceEntry)]).2 = [] := by
    simp [marketSellLoop, processBalance, hpf, hne]
  intro h
  unfold claimEntryPerItem at h
  rw [hloop] at h
  simp at h

/-- C8 amended: within one invocation every error is local to the batch item
that caused it and processing of the remaining items continues:
`executeAlgoBuyOrders` returns exactly one entry per configured instrument,
each computed from that instrument alone, a thrown error being recorded as
that instrument's failure entry; the market-sell loop records each processed
asset's thrown error (in the sources, always the TypeError from the
nonexistent `okxClient.getMarketTicker`) as that asset's own failure entry
and continues, never reaching `placeOrder` — but assets with empty or
non-positive-parsing balance are skipped by `continue` with no entry, so its
result list has one entry per processed input item, not per input item. -/
theorem batch_errors_local (cfgs : List (String × Rat)) (balance : Rat)
    (prices : String → Rat) (nets : String → Except String OKXResponse)
    (balances : List BalanceEntry) (symbol : String) (lim : Rat)
    (e : String) :
    (executeAlgoBuyOrders cfgs balance prices nets).2
        = (cfgs.map fun it => (algoItem balance prices nets it).2) ∧
    (executeAlgoBuyOrders cfgs balance prices nets).2.length = cfgs.length ∧
    (nets symbol = Except.error e →
      (algoItem balance prices nets (symbol, lim)).2
        = algoFailureResult symbol balance e) ∧
    (marketSellLoop balances).2
        = balances.flatMap (fun b => (processBalance b).2) ∧
    (∀ b ∈ balances, proceedsToTicker b = true →
      (processBalance b).2 = [tickerFailure b]) ∧
    (marketSellLoop balances).2.length
        = (balances.filter proceedsToTicker).length ∧
    (marketSellLoop balances).1 = [] := by
  refine ⟨?_, ?_, ?_, ?_, ?_, marketSellLoop_len balances,
    marketSellLoop_no_orders balances⟩
  · rw [executeAlgoBuyOrders_eq]
  · rw [executeAlgoBuyOrders_eq]
    simp
  · intro h
    simp [algoItem, placeTriggerOrderForCrypto, h]
  · rw [marketSellLoop_eq]
  · intro b _ hp
    rw [processBalance_entries, if_pos hp]

/-- Closed witness for C8: with a network error on BTC and success on ETH,
the BTC failure is recorded as BTC's own entry (processing of ETH is
unaffected, the result list keeping one entry per configured instrument). -/
theorem batch_errors_local_witness :
    (algoItem 1000 (fun _ => 50000)
        (fun s => if s = "BTC" then Except.error "boom"
          else Except.ok ⟨"0", "", [⟨"", "ord1", "0"⟩]⟩) ("BTC", 94)).2
      = algoFailureResult "BTC" 1000 "boom" :=
  (batch_errors_local [("BTC", 94), ("ETH", 90)] 1000 (fun _ => 50000)
      (fun s => if s = "BTC" then Except.error "boom"
        else Except.ok ⟨"0", "", [⟨"", "ord1", "0"⟩]⟩)
      [⟨"BTC", "2.5"⟩] "BTC" 94 "boom").2.2.1 (by simp)

theorem casStatus_row_origin {db : List Fill} {t : String} {old new : Status}
    {f' : Fill} (h : f' ∈ casStatus db t old new) :
    ∃ f ∈ db, f.tradeId = f'.tradeId ∧ f.fillQuantity = f'.fillQuantity ∧
      f.instrument = f'.instrument := by
  rcases List.mem_map.mp h with ⟨g, hg, hupd⟩
  refine ⟨g, hg, ?_⟩
  rw [← hupd]
  by_cases hc : (g.tradeId == t && g.status == old) = true
  · rw [if_pos hc]
    exact ⟨rfl, rfl, rfl⟩
  · have hcf : (g.tradeId == t && g.status == old) = false := by simpa using hc
    rw [hcf, if_neg Bool.false_ne_true]
    exact ⟨rfl, rfl, rfl⟩

theorem engineStep_row_origin {db : List Fill} {op : EngineOp} {f' : Fill}
    (h : f' ∈ (engineStep db op).1) :
    (∃ f ∈ db, f.tradeId = f'.tradeId ∧ f.fillQuantity = f'.fillQuantity ∧
      f.instrument = f'.instrument) ∨
    (∃ r, op = EngineOp.ingest r ∧ r.tradeId = f'.tradeId ∧
      r.fillQuantity = f'.fillQuantity ∧ r.instrument = f'.instrument) := by
  cases op with
  | lock t now =>
      rcases hfind : db.find? (fun f => f.tradeId == t
          && f.status == Status.unprocessed
          && decide (f.sellDeadline ≤ now)) with _ | g
      · simp only [engineStep, hfind] at h
        exact Or.inl ⟨f', h, rfl, rfl, rfl⟩
      · simp only [engineStep, hfind] at h
        exact Or.inl (casStatus_row_origin h)
  | complete t =>
      simp only [engineStep] at h
      exact Or.inl (casStatus_row_origin h)
  | ingest r =>
      simp only [engineStep] at h
      unfold ingestOne at h
      split at h
      · split at h
        · exact Or.inl ⟨f', h, rfl, rfl, rfl⟩
        · rcases List.mem_append.mp h with h | h
          · exact Or.inl ⟨f', h, rfl, rfl, rfl⟩
          · rcases List.mem_singleton.mp h with rfl
            exact Or.inr ⟨r, rfl, rfl, rfl, rfl⟩
      · exact Or.inl ⟨f', h, rfl, rfl, rfl⟩

theorem engineRun_event_origin :
    ∀ (ops : List EngineOp) (db : List Fill),
      ∀ ev ∈ (engineRun db ops).2,
      (∃ f ∈ db, f.tradeId = ev.tradeId ∧ f.fillQuantity = ev.quantity ∧
        f.instrument = ev.instrument) ∨
      (∃ r, EngineOp.ingest r ∈ ops ∧ r.tradeId = ev.tradeId ∧
        r.fillQuantity = ev.quantity ∧ r.instrument = ev.instrument) := by
  intro ops
  induction ops with
  | nil =>
      intro db ev hev
      cases hev
  | cons op rest ih =>
      intro db ev hev
      simp only [engineRun] at hev
      rcases List.mem_append.mp hev with hev | hev
      · cases op with
        | lock t now =>
            rcases hfind : db.find? (fun f => f.tradeId == t
                && f.status == Status.unprocessed
                && decide (f.sellDeadline ≤ now)) with _ | g
            · simp only [engineStep, hfind] at hev
              cases hev
            · simp only [engineStep, hfind] at hev
              rcases List.mem_singleton.mp hev with rfl
              have hg := List.mem_of_find?_eq_some hfind
              have hpred := List.find?_some hfind
              simp only [Bool.and_eq_true, beq_iff_eq,
                decide_eq_true_eq] at hpred
              exact Or.inl ⟨g, hg, hpred.1.1, rfl, rfl⟩
        | complete t =>
            simp only [engineStep] at hev
            cases hev
        | ingest r =>
            simp only [engineStep] at hev
            cases hev
      · rcases ih (engineStep db op).1 ev hev with
          ⟨f', hf', ht1, ht2, ht3⟩ | ⟨r, hrmem, ht1, ht2, ht3⟩
        · rcases engineStep_row_origin hf' with
            ⟨f, hf, h1, h2, h3⟩ | ⟨r, hop, h1, h2, h3⟩
          · exact Or.inl ⟨f, hf, h1.trans ht1, h2.trans ht2, h3.trans ht3⟩
          · refine Or.inr ⟨r, ?_, h1.trans ht1, h2.trans ht2, h3.trans ht3⟩
            rw [hop] at *
            exact List.mem_cons_self _ _
        · exact Or.inr ⟨r, List.mem_cons_of_mem _ hrmem, ht1, ht2, ht3⟩

/-- C5 (modelled from the spec, auto_sell_orders.py not being among the
sources; the in-repo market-sell endpoint cannot decide this claim since its
ticker call throws before any order is placed, so it never submits a sell —
see `marketSellLoop_no_orders`): every market-sell submission the
Liquidation Scheduler issues carries exactly the fill row's own
`fillQuantity` on its own `instrument` — the quantity of the uniquely
identified trade execution, never an order-level accumulated size and never
an account balance — and two fills sharing `parentOrderId` but with
distinct `tradeId` are liquidated independently, exactly one sell each. -/
theorem fill_isolated_liquidation (db : List Fill) (ops : List EngineOp)
    (f1 f2 : Fill) (now1 now2 : Nat)
    (h1 : f1 ∈ db) (h2 : f2 ∈ db)
    (hpo : f1.parentOrderId = f2.parentOrderId)
    (hne : f1.tradeId ≠ f2.tradeId)
    (hs1 : f1.status = Status.unprocessed) (hd1 : f1.sellDeadline ≤ now1)
    (hs2 : f2.status = Status.unprocessed) (hd2 : f2.sellDeadline ≤ now2)
    (hop1 : EngineOp.lock f1.tradeId now1 ∈ ops)
    (hop2 : EngineOp.lock f2.tradeId now2 ∈ ops) :
    countSells (engineRun db ops).2 f1.tradeId = 1 ∧
    countSells (engineRun db ops).2 f2.tradeId = 1 ∧
    ∀ ev ∈ (engineRun db ops).2,
      (∃ f ∈ db, f.tradeId = ev.tradeId ∧ f.fillQuantity = ev.quantity ∧
        f.instrument = ev.instrument) ∨
      (∃ r, EngineOp.ingest r ∈ ops ∧ r.tradeId = ev.tradeId ∧
        r.fillQuantity = ev.quantity ∧ r.instrument = ev.instrument) :=
  ⟨Nat.le_antisymm (countSells_engineRun_le_one ops db)
      (countSells_engineRun_ge_one ops db ⟨f1, h1, rfl, hs1, hd1⟩ hop1),
   Nat.le_antisymm (countSells_engineRun_le_one ops db)
      (countSells_engineRun_ge_one ops db ⟨f2, h2, rfl, hs2, hd2⟩ hop2),
   engineRun_event_origin ops db⟩

/-- The two partial fills of one parent order used by the C5 witness. -/
def fillT1 : Fill :=
  ⟨"T1", "ORD1", "BTC-USDT", "buy", 1 / 2, 50000, 1700000000000,
    1700072000000, Status.unprocessed⟩

/-- Second partial fill of the same parent order, distinct tradeId and its
own quantity. -/
def fillT2 : Fill :=
  ⟨"T2", "ORD1", "BTC-USDT", "buy", 3 / 10, 50000, 1700000000100,
    1700072000100, Status.unprocessed⟩

/-- The interleaved scheduler operations used by the C5 witness: both fills
are claimed and completed. -/
def liquidationOpsW : List EngineOp :=
  [EngineOp.lock "T1" 1700072000200, EngineOp.lock "T2" 1700072000200,
   EngineOp.complete "T1", EngineOp.complete "T2"]

/-- Closed witness for C5: two fills of the same parent order ORD1 with
distinct trade identifiers are each sold exactly once, and every submission
carries the owning fill's own quantity and instrument. -/
theorem fill_isolated_liquidation_witness :
    countSells (engineRun [fillT1, fillT2] liquidationOpsW).2 "T1" = 1 ∧
    countSells (engineRun [fillT1, fillT2] liquidationOpsW).2 "T2" = 1 ∧
    ∀ ev ∈ (engineRun [fillT1, fillT2] liquidationOpsW).2,
      (∃ f ∈ [fillT1, fillT2], f.tradeId = ev.tradeId ∧
        f.fillQuantity = ev.quantity ∧ f.instrument = ev.instrument) ∨
      (∃ r, EngineOp.ingest r ∈ liquidationOpsW ∧ r.tradeId = ev.tradeId ∧
        r.fillQuantity = ev.quantity ∧ r.instrument = ev.instrument) :=
  fill_isolated_liquidation [fillT1, fillT2] liquidationOpsW fillT1 fillT2
    1700072000200 1700072000200
    (by simp) (by simp) rfl (by decide) rfl (by decide) rfl (by decide)
    (by simp [liquidationOpsW, fillT1]) (by simp [liquidationOpsW, fillT2])

end Spec2Proof
